import Mathlib

/-!
# Verification of the whisper-movie segmentation-and-reconciliation core

This file is a shallow embedding in Lean 4 of the algorithmic core of the
`whispermovie` package (`core.py`, `translate.py`, `openai.py`):

* the Window Planner (`segment_audio`): splits a media duration into
  overlapping integer-second windows;
* the Boundary Reconciler (the `real_segments` computation inside
  `merge_subtitles`): computes, for each window, the "valid" sub-range whose
  captions are authoritative, using integer-floor-division midpoints;
* the Timeline Merger (the per-window filter-and-shift loop inside
  `merge_subtitles`);
* the Duplicate Collapser (the consecutive-duplicate deletion pass inside
  `merge_subtitles`);
* the retry wrapper `_make_openai_request` from `openai.py`, embedded as a
  trace-producing state machine;
* the CLI validation checks from `main`.

Python floats are embedded as exact rationals (`ℚ`), Python `int` as `ℤ`.
Python `//` (floor division) coincides with Lean's `Int` division `/`
(Euclidean division) for the positive divisors used here. The `while` loop of
`segment_audio` is embedded with explicit fuel; the wrapper supplies
`⌈duration⌉.toNat + 1` units, which the theorems below show is sufficient under
the documented preconditions (the loop starts at 0, advances by at least one
whole second per iteration, and stops once it passes `duration`).
-/

/-- One subtitle entry, as in `pysrt.SubRipItem`: start and end timestamps in
milliseconds plus the caption text. -/
structure Caption where
  start_ms : ℤ
  end_ms : ℤ
  text : String
deriving DecidableEq

namespace Caption

/-- `pysrt`'s `sub.shift(seconds=s)`: add `s` whole seconds (`1000 * s`
milliseconds) to both timestamps; the text and the millisecond remainders are
untouched. -/
def shift (seconds : ℤ) (c : Caption) : Caption :=
  { c with start_ms := c.start_ms + 1000 * seconds,
           end_ms := c.end_ms + 1000 * seconds }

end Caption

/-- The loop body of `segment_audio` (`core.py`, lines 62-76), with explicit
fuel. Each iteration: `end = start + segment_length`; if `end + 1 > duration`
then `end = int(duration + 1)` (for `duration > 0` Python's `int` truncation is
the floor, so this is `⌊duration⌋ + 1`); emit `(start, end)`; stop if
`end >= duration`; otherwise `start += segment_length - overlap`. -/
def segmentGo (duration : ℚ) (segment_length overlap : ℤ) :
    ℕ → ℤ → List (ℤ × ℤ)
  | 0, _ => []
  | fuel + 1, start =>
    if (start : ℚ) < duration then
      let e : ℤ :=
        if duration < ((start + segment_length : ℤ) : ℚ) + 1 then ⌊duration⌋ + 1
        else start + segment_length
      (start, e) ::
        (if duration ≤ (e : ℚ) then []
         else segmentGo duration segment_length overlap fuel
                (start + (segment_length - overlap)))
    else []

/-- The Window Planner: the sequence of `(start, end)` windows produced by
`segment_audio` for a media of the given duration. The fuel bound
`⌈duration⌉.toNat + 1` exceeds the number of loop iterations whenever
`overlap < segment_length` (the start strictly increases by whole seconds and
stays below `duration`). -/
def segment_audio (duration : ℚ) (segment_length overlap : ℤ) : List (ℤ × ℤ) :=
  segmentGo duration segment_length overlap (⌈duration⌉.toNat + 1) 0

/-- Start of the valid sub-range of window `i` (`core.py`, lines 97-100):
the window's own start for `i = 0`, otherwise the floor-division midpoint
`(windows[i].start + windows[i-1].end) // 2`. -/
def valid_start (segs : List (ℤ × ℤ)) (i : ℕ) : ℤ :=
  if i = 0 then (segs.getD 0 (0, 0)).1
  else ((segs.getD i (0, 0)).1 + (segs.getD (i - 1) (0, 0)).2) / 2

/-- End of the valid sub-range of window `i` (`core.py`, lines 92-95):
the window's own end for the last window, otherwise the floor-division midpoint
`(windows[i].end + windows[i+1].start) // 2`. -/
def valid_end (segs : List (ℤ × ℤ)) (i : ℕ) : ℤ :=
  if i + 1 = segs.length then (segs.getD i (0, 0)).2
  else ((segs.getD i (0, 0)).2 + (segs.getD (i + 1) (0, 0)).1) / 2

/-- The Boundary Reconciler: the `real_segments` list built in
`merge_subtitles` (`core.py`, lines 90-102), index-aligned with the windows. -/
def real_segments (segs : List (ℤ × ℤ)) : List (ℤ × ℤ) :=
  (List.range segs.length).map fun i => (valid_start segs i, valid_end segs i)

/-- The per-window body of the merge loop (`core.py`, lines 108-114): keep a
caption iff `valid_start <= sub.start.ordinal / 1000 + segment_start <
valid_end` (exact rational arithmetic on the millisecond ordinal), and shift
every kept caption by `segment_start` seconds. -/
def mergeWindow (track : List Caption) (segment_start vs ve : ℤ) :
    List Caption :=
  match track with
  | [] => []
  | sub :: rest =>
    if (vs : ℚ) ≤ (sub.start_ms : ℚ) / 1000 + (segment_start : ℚ) ∧
        (sub.start_ms : ℚ) / 1000 + (segment_start : ℚ) < (ve : ℚ) then
      Caption.shift segment_start sub :: mergeWindow rest segment_start vs ve
    else
      mergeWindow rest segment_start vs ve

/-- The outer merge loop of `merge_subtitles` (`core.py`, line 104): windows
zipped with their valid ranges, processed in order, results appended. Like
Python's `zip`, the traversal stops when either list runs out. -/
def mergeLoop : List (List Caption × ℤ × ℤ) → List (ℤ × ℤ) → List Caption
  | (track, s, _) :: restSegs, (vs, ve) :: restValid =>
    mergeWindow track s vs ve ++ mergeLoop restSegs restValid
  | _, _ => []

/-- The Duplicate Collapser (`core.py`, lines 117-131): scan the merged list,
find the maximal run of captions whose text equals the run head's text, drop
the whole run if its length is at least `delete_duplicates`, keep it verbatim
otherwise. -/
def removeDuplicates (subs : List Caption) (delete_duplicates : ℤ) :
    List Caption :=
  match subs with
  | [] => []
  | c :: rest =>
    let run := c :: rest.takeWhile (fun d => d.text == c.text)
    (if delete_duplicates ≤ (run.length : ℤ) then [] else run) ++
      removeDuplicates (rest.dropWhile (fun d => d.text == c.text))
        delete_duplicates
termination_by subs.length
decreasing_by
  simp only [List.length_cons]
  exact Nat.lt_succ_of_le (List.dropWhile_sublist _).length_le

/-- The run decomposition performed by the Duplicate Collapser's two-pointer
scan: the merged list split into maximal runs of consecutive captions whose
text equals the run head's text. -/
def textRuns (subs : List Caption) : List (List Caption) :=
  match subs with
  | [] => []
  | c :: rest =>
    (c :: rest.takeWhile (fun d => d.text == c.text)) ::
      textRuns (rest.dropWhile (fun d => d.text == c.text))
termination_by subs.length
decreasing_by
  simp only [List.length_cons]
  exact Nat.lt_succ_of_le (List.dropWhile_sublist _).length_le

/-- `merge_subtitles` (`core.py`, lines 79-134) with the file I/O abstracted:
each window carries its caption track in place of its subtitle path. Valid
ranges are computed from the `(start, end)` pairs, the merge loop filters and
shifts, and the duplicate pass filters the result. -/
def merge_subtitles (segs : List (List Caption × ℤ × ℤ))
    (delete_duplicates : ℤ) : List Caption :=
  removeDuplicates
    (mergeLoop segs (real_segments (segs.map fun x => (x.2.1, x.2.2))))
    delete_duplicates

/-- The CLI argument checks of `main` (`core.py`, lines 204-209 and
`translate.py`, lines 213-218), in source order, returning the message of the
first `ValueError` raised, or `none` when all checks pass. -/
def validate_args (segment overlap delete_duplicates : ℤ) : Option String :=
  if segment < 10 then
    some "segment must be at least 10 seconds."
  else if overlap < 0 ∨ overlap ≥ segment then
    some "overlap must be at least 0 and less than segment."
  else if delete_duplicates ≤ 1 then
    some "delete_duplicates must be at least 2 or zero."
  else
    none

/-- Possible results of one `requests.post` attempt inside
`_make_openai_request` (`openai.py`, lines 41-57): an HTTP response with a
status code and body, some other raised exception, or a `KeyboardInterrupt`. -/
inductive HttpResult where
  | response (status : ℕ) (text : String)
  | exn
  | interrupt
deriving DecidableEq

/-- Observable events of the retry loop: issuing attempt number `n`, sleeping
for the given number of seconds, and rewinding every uploaded file stream to
position 0. -/
inductive ReqEvent where
  | attempt (n : ℕ)
  | sleep (seconds : ℚ)
  | reset
deriving DecidableEq

/-- Final outcome of `_make_openai_request`: the response body on success, the
last error re-raised after exhausting retries, or a propagated
`KeyboardInterrupt`. -/
inductive ReqOutcome where
  | ok (text : String)
  | failed
  | interrupted
deriving DecidableEq

/-- How the `try`/`except` of `_make_openai_request` classifies one attempt:
a 200 response returns its body; a `KeyboardInterrupt` is re-raised
immediately; any other exception — including the `RuntimeError` raised for a
non-200 status — falls into the bare `except` and counts as a retryable
failure. -/
def attemptResult (h : HttpResult) : ReqOutcome :=
  match h with
  | .interrupt => .interrupted
  | .exn => .failed
  | .response status text => if status = 200 then .ok text else .failed

/-- The retry loop of `_make_openai_request` (`openai.py`, lines 37-70),
returning the trace of observable events and the final outcome. State carried
across iterations: the attempt index, the current `delay`, and the number of
retries still allowed (`max_retries - num_retries`). On a retryable failure
with retries left the code doubles `delay`, sleeps for the doubled delay,
rewinds the uploaded files, and tries again; with no retries left it re-raises. -/
def retryLoop (att : ℕ → HttpResult) :
    ℕ → ℚ → ℕ → List ReqEvent × ReqOutcome
  | idx, _, 0 =>
    match attemptResult (att idx) with
    | .ok text => ([.attempt idx], .ok text)
    | .interrupted => ([.attempt idx], .interrupted)
    | .failed => ([.attempt idx], .failed)
  | idx, delay, r + 1 =>
    match attemptResult (att idx) with
    | .ok text => ([.attempt idx], .ok text)
    | .interrupted => ([.attempt idx], .interrupted)
    | .failed =>
      let next := retryLoop att (idx + 1) (delay * 2) r
      (.attempt idx :: .sleep (delay * 2) :: .reset :: next.1, next.2)

/-- `_make_openai_request`, abstracted over the transport: `num_retries`
starts at 0, `delay` starts at 1 second. -/
def make_openai_request (att : ℕ → HttpResult) (max_retries : ℕ) :
    List ReqEvent × ReqOutcome :=
  retryLoop att 0 1 max_retries

/-! ## Basic facts about the Boundary Reconciler -/

lemma real_segments_length (segs : List (ℤ × ℤ)) :
    (real_segments segs).length = segs.length := by
  simp [real_segments]

lemma real_segments_getElem (segs : List (ℤ × ℤ)) (i : ℕ)
    (h : i < (real_segments segs).length) :
    (real_segments segs)[i] = (valid_start segs i, valid_end segs i) := by
  simp [real_segments]

/-- Adjacent valid ranges share their boundary: the end midpoint of window `i`
and the start midpoint of window `i + 1` are the same floor-division midpoint. -/
lemma valid_end_eq_valid_start_succ (segs : List (ℤ × ℤ)) (i : ℕ)
    (h : i + 1 < segs.length) :
    valid_end segs i = valid_start segs (i + 1) := by
  rw [valid_end, valid_start, if_neg (by omega), if_neg (by omega)]
  simp only [Nat.add_sub_cancel]
  rw [Int.add_comm]

/-- C1: for every nonempty window list with `start < end` and strictly
increasing starts, the valid ranges computed by the Boundary Reconciler are
index-aligned with the windows, adjacent ranges share their boundary
(`valid[i].end = valid[i+1].start`), the first range starts at the first
window's start, and the last range ends at the last window's end — i.e. the
ranges partition `[windows[0].start, windows[-1].end)` in the claim's sense. -/
theorem valid_ranges_partition (segs : List (ℤ × ℤ)) (hne : segs ≠ [])
    (_hwf : ∀ w ∈ segs, w.1 < w.2)
    (_hinc : List.Chain' (fun w w' => w.1 < w'.1) segs) :
    (real_segments segs).length = segs.length ∧
    (∀ i, i + 1 < segs.length → valid_end segs i = valid_start segs (i + 1)) ∧
    valid_start segs 0 = (segs.getD 0 (0, 0)).1 ∧
    valid_end segs (segs.length - 1) = (segs.getD (segs.length - 1) (0, 0)).2 := by
  have hlen : segs.length ≠ 0 := by
    simpa using fun h => hne (List.length_eq_zero.1 h)
  refine ⟨real_segments_length segs,
    fun i hi => valid_end_eq_valid_start_succ segs i hi, ?_, ?_⟩
  · rw [valid_start, if_pos rfl]
  · rw [valid_end, if_pos (by omega)]

/-- Witness for `valid_ranges_partition` at the spec's worked example
`windows = [(0, 600), (540, 1001)]`. -/
theorem valid_ranges_partition_witness :
    ([((0 : ℤ), (600 : ℤ)), (540, 1001)] ≠ []) ∧
    (∀ w ∈ [((0 : ℤ), (600 : ℤ)), (540, 1001)], w.1 < w.2) ∧
    List.Chain' (fun w w' => w.1 < w'.1) [((0 : ℤ), (600 : ℤ)), (540, 1001)] ∧
    ((real_segments [((0 : ℤ), (600 : ℤ)), (540, 1001)]).length =
        [((0 : ℤ), (600 : ℤ)), (540, 1001)].length ∧
      (∀ i, i + 1 < [((0 : ℤ), (600 : ℤ)), (540, 1001)].length →
        valid_end [((0 : ℤ), (600 : ℤ)), (540, 1001)] i =
          valid_start [((0 : ℤ), (600 : ℤ)), (540, 1001)] (i + 1)) ∧
      valid_start [((0 : ℤ), (600 : ℤ)), (540, 1001)] 0 =
        ([((0 : ℤ), (600 : ℤ)), (540, 1001)].getD 0 (0, 0)).1 ∧
      valid_end [((0 : ℤ), (600 : ℤ)), (540, 1001)]
          ([((0 : ℤ), (600 : ℤ)), (540, 1001)].length - 1) =
        ([((0 : ℤ), (600 : ℤ)), (540, 1001)].getD
          ([((0 : ℤ), (600 : ℤ)), (540, 1001)].length - 1) (0, 0)).2) :=
  ⟨by decide, by decide, by simp [List.chain'_cons],
    valid_ranges_partition _ (by decide) (by decide) (by simp [List.chain'_cons])⟩

/-! ## The Timeline Merger's per-window filter -/

/-- The per-window merge loop is exactly: filter on the exact rational
condition, then shift every survivor. -/
lemma mergeWindow_eq_filter_map (track : List Caption) (s vs ve : ℤ) :
    mergeWindow track s vs ve =
      (track.filter fun c =>
        decide ((vs : ℚ) ≤ (c.start_ms : ℚ) / 1000 + (s : ℚ) ∧
          (c.start_ms : ℚ) / 1000 + (s : ℚ) < (ve : ℚ))).map (Caption.shift s) := by
  induction track with
  | nil => rfl
  | cons sub rest ih =>
    by_cases h : (vs : ℚ) ≤ (sub.start_ms : ℚ) / 1000 + (s : ℚ) ∧
        (sub.start_ms : ℚ) / 1000 + (s : ℚ) < (ve : ℚ)
    · rw [mergeWindow, if_pos h, List.filter_cons, if_pos (by simpa using h),
        List.map_cons, ih]
    · rw [mergeWindow, if_neg h, List.filter_cons, if_neg (by simpa using h), ih]

/-- C4: a caption of window `i`'s track survives the Timeline Merger iff
`valid_start ≤ start_ms / 1000 + window.start < valid_end` holds as an exact
rational comparison, and each survivor is shifted by exactly `window.start`
seconds — `1000 * start` added to both millisecond timestamps, text and
millisecond precision untouched. -/
theorem merger_keeps_iff_and_shifts (track : List Caption) (s vs ve : ℤ) :
    mergeWindow track s vs ve =
      (track.filter fun c =>
        decide ((vs : ℚ) ≤ (c.start_ms : ℚ) / 1000 + (s : ℚ) ∧
          (c.start_ms : ℚ) / 1000 + (s : ℚ) < (ve : ℚ))).map (Caption.shift s) ∧
    ∀ c : Caption, Caption.shift s c =
      ⟨c.start_ms + 1000 * s, c.end_ms + 1000 * s, c.text⟩ :=
  ⟨mergeWindow_eq_filter_map track s vs ve, fun _ => rfl⟩

/-! ## CLI validation and the Duplicate Collapser at threshold 0 -/

/-- C8 (code bug): the CLI check `delete_duplicates <= 1` rejects the
threshold 0, even though its own error message ("must be at least 2 or zero")
and the `--delete-duplicates` help text ("Setting to 0 to disable") document 0
as a valid, collapsing-disabled setting. Thresholds 1 and negative values are
rejected as documented, 2 and above are accepted, and the window-length and
overlap checks behave as documented. -/
theorem validate_args_rejects_zero :
    validate_args 600 60 0 = some "delete_duplicates must be at least 2 or zero." ∧
    validate_args 600 60 1 = some "delete_duplicates must be at least 2 or zero." ∧
    validate_args 600 60 (-3) = some "delete_duplicates must be at least 2 or zero." ∧
    validate_args 600 60 2 = none ∧
    validate_args 600 60 3 = none ∧
    validate_args 9 0 3 = some "segment must be at least 10 seconds." ∧
    validate_args 600 600 3 = some "overlap must be at least 0 and less than segment." ∧
    validate_args 600 (-1) 3 = some "overlap must be at least 0 and less than segment." := by
  decide

/-- C6 (code bug): with `delete_duplicates = 0` the collapser deletes every
caption (every run has length at least 1, hence at least 0), instead of the
documented pass-through ("Setting to 0 to disable"): a one-caption timeline
comes out empty. -/
theorem removeDuplicates_zero_deletes_all :
    removeDuplicates [⟨0, 1000, "a"⟩] 0 = [] ∧
    removeDuplicates [⟨0, 1000, "a"⟩] 0 ≠ [⟨0, 1000, "a"⟩] := by
  have h : removeDuplicates [⟨0, 1000, "a"⟩] 0 = [] := by
    rw [removeDuplicates.eq_def]
    simp
    rw [removeDuplicates.eq_def]
  exact ⟨h, by simp [h]⟩

/-! ## The Duplicate Collapser as a run filter -/

lemma textRuns_nil : textRuns [] = [] := by
  rw [textRuns.eq_def]

lemma textRuns_cons (c : Caption) (rest : List Caption) :
    textRuns (c :: rest) =
      (c :: rest.takeWhile (fun d => d.text == c.text)) ::
        textRuns (rest.dropWhile (fun d => d.text == c.text)) := by
  rw [textRuns.eq_def]

lemma removeDuplicates_nil (t : ℤ) : removeDuplicates [] t = [] := by
  rw [removeDuplicates.eq_def]

lemma removeDuplicates_cons (c : Caption) (rest : List Caption) (t : ℤ) :
    removeDuplicates (c :: rest) t =
      (if t ≤ ((c :: rest.takeWhile fun d => d.text == c.text).length : ℤ) then []
       else c :: rest.takeWhile (fun d => d.text == c.text)) ++
        removeDuplicates (rest.dropWhile fun d => d.text == c.text) t := by
  rw [removeDuplicates.eq_def]

/-- Every caption in a run `c :: takeWhile (· == c.text) l` has the run
head's text. -/
lemma mem_run_text {c a : Caption} {l : List Caption}
    (ha : a ∈ c :: l.takeWhile (fun d => d.text == c.text)) : a.text = c.text := by
  rcases List.mem_cons.1 ha with h | h
  · rw [h]
  · have hb : (a.text == c.text) = true :=
      @List.mem_takeWhile_imp _ (fun d => d.text == c.text) l a h
    exact eq_of_beq hb

/-- The head of `dropWhile p l` fails `p`. -/
lemma dropWhile_head_false {α : Type _} (p : α → Bool) :
    ∀ {l : List α} {x : α} {xs : List α}, l.dropWhile p = x :: xs → p x = false := by
  intro l
  induction l with
  | nil => intro x xs h; simp [List.dropWhile] at h
  | cons a l ih =>
    intro x xs h
    by_cases hpa : p a
    · rw [List.dropWhile_cons_of_pos hpa] at h
      exact ih h
    · rw [List.dropWhile_cons_of_neg hpa] at h
      cases h
      simpa using hpa

/-- The runs concatenate back to the original timeline. -/
lemma textRuns_flatten (subs : List Caption) : (textRuns subs).flatten = subs := by
  induction subs using textRuns.induct with
  | case1 => rw [textRuns_nil]; rfl
  | case2 sub rest ih =>
    rw [textRuns_cons, List.flatten_cons, ih, List.cons_append,
      List.takeWhile_append_dropWhile]

/-- Every run is nonempty and has constant text. -/
lemma textRuns_sound (subs : List Caption) :
    ∀ r ∈ textRuns subs, r ≠ [] ∧ ∀ a ∈ r, ∀ b ∈ r, a.text = b.text := by
  induction subs using textRuns.induct with
  | case1 => rw [textRuns_nil]; intro r hr; simp at hr
  | case2 sub rest ih =>
    rw [textRuns_cons]
    intro r hr
    rcases List.mem_cons.1 hr with h | h
    · subst h
      exact ⟨List.cons_ne_nil _ _,
        fun a ha b hb => (mem_run_text ha).trans (mem_run_text hb).symm⟩
    · exact ih r h

/-- Runs are maximal: adjacent runs have different texts throughout. -/
lemma textRuns_chain (subs : List Caption) :
    List.Chain' (fun r s => ∀ a ∈ r, ∀ b ∈ s, a.text ≠ b.text) (textRuns subs) := by
  induction subs using textRuns.induct with
  | case1 => rw [textRuns_nil]; exact List.chain'_nil
  | case2 sub rest ih =>
    rw [textRuns_cons]
    rw [List.chain'_cons']
    refine ⟨?_, ih⟩
    intro r₂ hr₂ a ha b hb
    cases hrest : rest.dropWhile (fun d => d.text == sub.text) with
    | nil => rw [hrest, textRuns_nil] at hr₂; simp at hr₂
    | cons h t =>
      rw [hrest, textRuns_cons] at hr₂
      simp only [List.head?_cons, Option.mem_def, Option.some.injEq] at hr₂
      subst hr₂
      have hat : a.text = sub.text := mem_run_text ha
      have hbt : b.text = h.text := mem_run_text hb
      have hne : (h.text == sub.text) = false :=
        dropWhile_head_false (fun (d : Caption) => d.text == sub.text) hrest
      intro hab
      rw [hat, hbt] at hab
      rw [← hab] at hne
      simp at hne

/-- The collapser keeps exactly the runs shorter than the threshold, in
order. -/
lemma removeDuplicates_eq_runs (subs : List Caption) (t : ℤ) :
    removeDuplicates subs t =
      ((textRuns subs).filter fun r => decide ((r.length : ℤ) < t)).flatten := by
  induction subs using textRuns.induct with
  | case1 => rw [removeDuplicates_nil, textRuns_nil]; rfl
  | case2 sub rest ih =>
    rw [removeDuplicates_cons, textRuns_cons, List.filter_cons]
    by_cases h : t ≤ ((sub :: rest.takeWhile fun d => d.text == sub.text).length : ℤ)
    · rw [if_pos h, if_neg (by simpa using not_lt.2 h), ih, List.nil_append]
    · rw [if_neg h, if_pos (by simpa using not_le.1 h), ih, List.flatten_cons]

/-- C3: for positive thresholds, the Duplicate Collapser partitions the
timeline into maximal runs of immediately-consecutive captions with identical
text (the runs are nonempty, have constant text, adjacent runs differ, and
concatenate back to the input) and keeps exactly the runs of length below the
threshold, verbatim and in order, dropping the runs of length at least the
threshold whole. -/
theorem duplicate_collapser_runs (subs : List Caption) (threshold : ℤ)
    (_ht : 0 < threshold) :
    (textRuns subs).flatten = subs ∧
    (∀ r ∈ textRuns subs, r ≠ [] ∧ ∀ a ∈ r, ∀ b ∈ r, a.text = b.text) ∧
    List.Chain' (fun r s => ∀ a ∈ r, ∀ b ∈ s, a.text ≠ b.text) (textRuns subs) ∧
    removeDuplicates subs threshold =
      ((textRuns subs).filter fun r => decide ((r.length : ℤ) < threshold)).flatten :=
  ⟨textRuns_flatten subs, textRuns_sound subs, textRuns_chain subs,
    removeDuplicates_eq_runs subs threshold⟩

/-- Witness for `duplicate_collapser_runs` at the spec's example
`["ok", "ok", "ok", "hi"]` with threshold 3. -/
theorem duplicate_collapser_runs_witness :
    (0 : ℤ) < 3 ∧
    ((textRuns [⟨0, 1, "ok"⟩, ⟨2, 3, "ok"⟩, ⟨4, 5, "ok"⟩, ⟨6, 7, "hi"⟩]).flatten =
        [⟨0, 1, "ok"⟩, ⟨2, 3, "ok"⟩, ⟨4, 5, "ok"⟩, ⟨6, 7, "hi"⟩] ∧
      (∀ r ∈ textRuns [⟨0, 1, "ok"⟩, ⟨2, 3, "ok"⟩, ⟨4, 5, "ok"⟩, ⟨6, 7, "hi"⟩],
        r ≠ [] ∧ ∀ a ∈ r, ∀ b ∈ r, a.text = b.text) ∧
      List.Chain' (fun r s => ∀ a ∈ r, ∀ b ∈ s, a.text ≠ b.text)
        (textRuns [⟨0, 1, "ok"⟩, ⟨2, 3, "ok"⟩, ⟨4, 5, "ok"⟩, ⟨6, 7, "hi"⟩]) ∧
      removeDuplicates [⟨0, 1, "ok"⟩, ⟨2, 3, "ok"⟩, ⟨4, 5, "ok"⟩, ⟨6, 7, "hi"⟩] 3 =
        ((textRuns [⟨0, 1, "ok"⟩, ⟨2, 3, "ok"⟩, ⟨4, 5, "ok"⟩, ⟨6, 7, "hi"⟩]).filter
          fun r => decide ((r.length : ℤ) < 3)).flatten) :=
  ⟨by decide, duplicate_collapser_runs _ 3 (by decide)⟩

/-- C10: for every threshold (positive, zero, or negative) the collapser's
output is a subsequence of its input — no caption is created or modified, and
the survivors keep their relative order. -/
theorem removeDuplicates_sublist (subs : List Caption) (t : ℤ) :
    (removeDuplicates subs t).Sublist subs := by
  induction subs using textRuns.induct with
  | case1 => rw [removeDuplicates_nil]
  | case2 sub rest ih =>
    rw [removeDuplicates_cons]
    have hsplit : sub :: rest =
        (sub :: rest.takeWhile (fun d => d.text == sub.text)) ++
          rest.dropWhile (fun d => d.text == sub.text) := by
      rw [List.cons_append, List.takeWhile_append_dropWhile]
    by_cases h : t ≤ ((sub :: rest.takeWhile fun d => d.text == sub.text).length : ℤ)
    · rw [if_pos h]
      conv_rhs => rw [hsplit]
      exact List.Sublist.append (List.nil_sublist _) ih
    · rw [if_neg h]
      conv_rhs => rw [hsplit]
      exact List.Sublist.append (List.Sublist.refl _) ih

/-! ## The Window Planner on short media (single-window case) -/

/-- Counterexample to the claim that every duration smaller than the window
length yields exactly one window covering `[0, duration + 1)`: a zero duration
yields no window at all, and duration `1/2` yields the single window
`[0, 1) = [0, ⌊1/2⌋ + 1)`, which ends strictly before `duration + 1 = 3/2`. -/
theorem single_window_cex :
    segment_audio 0 600 60 = [] ∧
    segment_audio (1/2) 600 60 = [(0, 1)] ∧ (1 : ℚ) < 1/2 + 1 := by
  refine ⟨?_, ?_, by norm_num⟩
  · norm_num [segment_audio, segmentGo]
  · norm_num [segment_audio, segmentGo]

/-- C9 (amended): for every duration with `0 < duration < segment_length`, the
Window Planner yields exactly one window `[0, ⌊duration⌋ + 1)` (the snap rule
fires on the very first iteration because `duration < length + 1`). -/
theorem single_window_amended (d : ℚ) (L O : ℤ)
    (h0 : 0 < d) (hdL : d < (L : ℚ)) :
    segment_audio d L O = [(0, ⌊d⌋ + 1)] := by
  have h0' : ((0 : ℤ) : ℚ) < d := by exact_mod_cast h0
  have hsnap : d < ((0 + L : ℤ) : ℚ) + 1 := by push_cast; linarith
  have hstop : d ≤ ((⌊d⌋ + 1 : ℤ) : ℚ) := by
    push_cast
    linarith [Int.lt_floor_add_one d]
  rw [segment_audio, segmentGo, if_pos h0']
  simp only [if_pos hsnap, if_pos hstop]

/-- Witness for `single_window_amended` at duration 3, window length 600. -/
theorem single_window_amended_witness :
    (0 : ℚ) < 3 ∧ (3 : ℚ) < ((600 : ℤ) : ℚ) ∧
    segment_audio 3 600 60 = [(0, ⌊(3 : ℚ)⌋ + 1)] :=
  ⟨by norm_num, by norm_num,
    single_window_amended 3 600 60 (by norm_num) (by norm_num)⟩

/-! ## The retry wrapper -/

lemma retryLoop_failed_zero (att : ℕ → HttpResult) (idx : ℕ) (delay : ℚ)
    (h : attemptResult (att idx) = .failed) :
    retryLoop att idx delay 0 = ([.attempt idx], .failed) := by
  rw [retryLoop, h]

lemma retryLoop_failed_succ (att : ℕ → HttpResult) (idx : ℕ) (delay : ℚ)
    (r : ℕ) (h : attemptResult (att idx) = .failed) :
    retryLoop att idx delay (r + 1) =
      (.attempt idx :: .sleep (delay * 2) :: .reset ::
          (retryLoop att (idx + 1) (delay * 2) r).1,
        (retryLoop att (idx + 1) (delay * 2) r).2) := by
  rw [retryLoop, h]

lemma retryLoop_interrupted (att : ℕ → HttpResult) (idx : ℕ) (delay : ℚ)
    (r : ℕ) (h : attemptResult (att idx) = .interrupted) :
    retryLoop att idx delay r = ([.attempt idx], .interrupted) := by
  cases r with
  | zero => rw [retryLoop, h]
  | succ r => rw [retryLoop, h]

/-- When every attempt fails, the retry loop makes `r + 1` attempts, sleeping
`2 * delay, 4 * delay, …` between consecutive attempts and rewinding the file
streams after each sleep, and finally fails. -/
lemma retryLoop_all_failed (att : ℕ → HttpResult)
    (hfail : ∀ n, attemptResult (att n) = .failed) :
    ∀ (r idx : ℕ) (delay : ℚ), retryLoop att idx delay r =
      (((List.range r).map fun k =>
          [ReqEvent.attempt (idx + k), ReqEvent.sleep (2 ^ (k + 1) * delay),
            ReqEvent.reset]).flatten ++ [ReqEvent.attempt (idx + r)],
        ReqOutcome.failed) := by
  intro r
  induction r with
  | zero =>
    intro idx delay
    rw [retryLoop_failed_zero att idx delay (hfail idx)]
    simp
  | succ r ih =>
    intro idx delay
    rw [retryLoop_failed_succ att idx delay r (hfail idx), ih (idx + 1) (delay * 2)]
    dsimp only
    have hmap : (List.range r).map
        ((fun k => [ReqEvent.attempt (idx + k),
          ReqEvent.sleep (2 ^ (k + 1) * delay), ReqEvent.reset]) ∘ Nat.succ) =
        (List.range r).map (fun k => [ReqEvent.attempt (idx + 1 + k),
          ReqEvent.sleep (2 ^ (k + 1) * (delay * 2)), ReqEvent.reset]) := by
      refine List.map_congr_left ?_
      intro k _
      simp only [Function.comp_apply]
      have h1 : idx + Nat.succ k = idx + 1 + k := by omega
      have h2 : (2 : ℚ) ^ (Nat.succ k + 1) * delay = 2 ^ (k + 1) * (delay * 2) := by
        rw [pow_succ]
        ring
      rw [h1, h2]
    rw [List.range_succ_eq_map, List.map_cons, List.map_map, hmap,
      List.flatten_cons]
    have h3 : idx + (r + 1) = idx + 1 + r := by omega
    have h4 : (2 : ℚ) ^ (0 + 1) * delay = delay * 2 := by ring
    simp only [Nat.add_zero, h3, h4, List.cons_append, List.nil_append]

/-- C7: when every attempt fails with a retryable error, the wrapper makes
exactly `max_retries + 1` attempts and then fails, sleeping between
consecutive attempts with delays `2, 4, …, 2 ^ max_retries` seconds (the
1-second initial delay is doubled before each sleep) and rewinding every
uploaded file stream before each retry; a `KeyboardInterrupt` is never retried
and propagates immediately from any state of the loop; and a non-200 response
status is classified as a retryable failure. -/
theorem retry_wrapper_contract (att : ℕ → HttpResult) (max_retries : ℕ)
    (hfail : ∀ n, attemptResult (att n) = ReqOutcome.failed) :
    make_openai_request att max_retries =
      (((List.range max_retries).map fun k =>
          [ReqEvent.attempt k, ReqEvent.sleep (2 ^ (k + 1)), ReqEvent.reset]).flatten ++
        [ReqEvent.attempt max_retries], ReqOutcome.failed) ∧
    (∀ (att' : ℕ → HttpResult) (idx : ℕ) (delay : ℚ) (r : ℕ),
        att' idx = HttpResult.interrupt →
        retryLoop att' idx delay r = ([ReqEvent.attempt idx], ReqOutcome.interrupted)) ∧
    (∀ (status : ℕ) (text : String), status ≠ 200 →
        attemptResult (HttpResult.response status text) = ReqOutcome.failed) := by
  refine ⟨?_, ?_, ?_⟩
  · rw [make_openai_request, retryLoop_all_failed att hfail max_retries 0 1]
    simp only [Nat.zero_add, mul_one]
  · intro att' idx delay r h
    refine retryLoop_interrupted att' idx delay r ?_
    rw [h]
    rfl
  · intro status text h
    simp [attemptResult, h]

/-- Witness for `retry_wrapper_contract`: every attempt raises, with
`max_retries = 2`. -/
theorem retry_wrapper_contract_witness :
    (∀ n, attemptResult ((fun (_ : ℕ) => HttpResult.exn) n) = ReqOutcome.failed) ∧
    (make_openai_request (fun (_ : ℕ) => HttpResult.exn) 2 =
        (((List.range 2).map fun k =>
            [ReqEvent.attempt k, ReqEvent.sleep (2 ^ (k + 1)), ReqEvent.reset]).flatten ++
          [ReqEvent.attempt 2], ReqOutcome.failed) ∧
      (∀ (att' : ℕ → HttpResult) (idx : ℕ) (delay : ℚ) (r : ℕ),
          att' idx = HttpResult.interrupt →
          retryLoop att' idx delay r = ([ReqEvent.attempt idx], ReqOutcome.interrupted)) ∧
      (∀ (status : ℕ) (text : String), status ≠ 200 →
          attemptResult (HttpResult.response status text) = ReqOutcome.failed)) :=
  ⟨fun _ => rfl, retry_wrapper_contract (fun (_ : ℕ) => HttpResult.exn) 2 (fun _ => rfl)⟩

/-! ## The Window Planner's loop invariant -/

/-- Master invariant of the Window Planner loop: started at any `start` below
`duration` with enough fuel, the loop emits a window list headed at `start`
that covers `[start, duration)` with no gap, satisfies the
overlap-and-monotonicity chain, gives every non-final window the exact length
`segment_length`, keeps every window inside `[start, ∞)` with `start < end`,
and ends with a window whose end reaches `duration`. -/
lemma segmentGo_spec (d : ℚ) (L O : ℤ) (hO : 0 ≤ O) (hOL : O < L) :
    ∀ (fuel : ℕ) (start : ℤ), (start : ℚ) < d →
      (⌈d⌉ - start).toNat < fuel →
      ∃ e rest, segmentGo d L O fuel start = (start, e) :: rest ∧
        (∀ x : ℚ, (start : ℚ) ≤ x → x < d →
          ∃ w ∈ (start, e) :: rest, (w.1 : ℚ) ≤ x ∧ x < (w.2 : ℚ)) ∧
        List.Chain' (fun w w' => w.2 - w'.1 = O ∧ w.1 < w'.1 ∧ w.2 < w'.2)
          ((start, e) :: rest) ∧
        (∀ w ∈ ((start, e) :: rest).dropLast, w.2 = w.1 + L) ∧
        (∀ w ∈ (start, e) :: rest, start ≤ w.1 ∧ w.1 < w.2) ∧
        ∃ wl, ((start, e) :: rest).getLast? = some wl ∧ d ≤ (wl.2 : ℚ) := by
  intro fuel
  induction fuel with
  | zero => intro start _ hf; exact absurd hf (Nat.not_lt_zero _)
  | succ fuel ih =>
    intro start hstart hfuel
    have hstartceil : start < ⌈d⌉ := by
      have h1 : (start : ℚ) < (⌈d⌉ : ℚ) := lt_of_lt_of_le hstart (Int.le_ceil d)
      exact_mod_cast h1
    by_cases hsnap : d < ((start + L : ℤ) : ℚ) + 1
    · -- the snap rule fires: this is the final window, ending at ⌊d⌋ + 1 ≥ d
      have hstop : d ≤ ((⌊d⌋ + 1 : ℤ) : ℚ) := by
        push_cast
        linarith [Int.lt_floor_add_one d]
      have heq : segmentGo d L O (fuel + 1) start = [(start, ⌊d⌋ + 1)] := by
        rw [segmentGo, if_pos hstart]
        simp only [if_pos hsnap, if_pos hstop]
      refine ⟨⌊d⌋ + 1, [], heq, ?_, ?_, ?_, ?_, ?_⟩
      · intro x hx hxd
        refine ⟨(start, ⌊d⌋ + 1), by simp, hx, ?_⟩
        push_cast
        have := Int.lt_floor_add_one d
        push_cast at hstop
        linarith
      · simp
      · simp
      · intro w hw
        have hw' : w = (start, ⌊d⌋ + 1) := by simpa using hw
        subst hw'
        have hsf : start ≤ ⌊d⌋ := Int.le_floor.2 (le_of_lt hstart)
        exact ⟨le_refl start, by omega⟩
      · exact ⟨(start, ⌊d⌋ + 1), by simp, hstop⟩
    · -- no snap: this window is (start, start + L) and the loop continues
      have hgt : ((start + L : ℤ) : ℚ) + 1 ≤ d := not_lt.1 hsnap
      have hcont : ¬ d ≤ ((start + L : ℤ) : ℚ) := by
        push_cast at hgt ⊢
        linarith
      have heq : segmentGo d L O (fuel + 1) start =
          (start, start + L) :: segmentGo d L O fuel (start + (L - O)) := by
        rw [segmentGo, if_pos hstart]
        simp only [if_neg hsnap, if_neg hcont]
      set s' := start + (L - O) with hs'
      have hs'le : s' ≤ start + L := by omega
      have hs'lt : (s' : ℚ) < d := by
        have hq : ((s' : ℤ) : ℚ) ≤ ((start + L : ℤ) : ℚ) := by exact_mod_cast hs'le
        push_cast at hq hgt ⊢
        linarith
      have hs'ceil : s' < ⌈d⌉ := by
        have h1 : (s' : ℚ) < (⌈d⌉ : ℚ) := lt_of_lt_of_le hs'lt (Int.le_ceil d)
        exact_mod_cast h1
      have hfuel' : (⌈d⌉ - s').toNat < fuel := by omega
      obtain ⟨e', rest', heq', hcov', hchain', hdrop', hbnd', hlast'⟩ :=
        ih s' hs'lt hfuel'
      refine ⟨start + L, (s', e') :: rest', by rw [heq, heq'], ?_, ?_, ?_, ?_, ?_⟩
      · -- coverage
        intro x hx hxd
        rcases lt_or_le x ((start + L : ℤ) : ℚ) with hlt | hge
        · exact ⟨(start, start + L), by simp, hx, hlt⟩
        · have hx' : ((s' : ℤ) : ℚ) ≤ x :=
            le_trans (by exact_mod_cast hs'le) hge
          obtain ⟨w, hw, hw1, hw2⟩ := hcov' x hx' hxd
          exact ⟨w, List.mem_cons_of_mem _ hw, hw1, hw2⟩
      · -- chain
        refine List.chain'_cons.2 ⟨⟨by omega, by omega, ?_⟩, hchain'⟩
        cases rest' with
        | nil =>
          obtain ⟨wl, hwl, hwld⟩ := hlast'
          have hwl' : wl = (s', e') := by simpa using hwl.symm
          subst hwl'
          have : ((start + L : ℤ) : ℚ) < (e' : ℚ) := by
            push_cast at hgt hwld ⊢
            linarith
          exact_mod_cast this
        | cons w2 rest'' =>
          have hmem : (s', e') ∈ ((s', e') :: w2 :: rest'').dropLast := by
            rw [List.dropLast_cons_of_ne_nil (List.cons_ne_nil _ _)]
            exact List.mem_cons_self _ _
          have := hdrop' _ hmem
          simp only at this
          omega
      · -- non-final windows have exact length
        rw [List.dropLast_cons_of_ne_nil (List.cons_ne_nil _ _)]
        intro w hw
        rcases List.mem_cons.1 hw with h | h
        · subst h; rfl
        · exact hdrop' w h
      · -- bounds
        intro w hw
        rcases List.mem_cons.1 hw with h | h
        · subst h; exact ⟨le_refl _, by omega⟩
        · have hb := hbnd' w h
          exact ⟨by omega, hb.2⟩
      · -- the final window reaches the duration
        obtain ⟨wl, hwl, hwld⟩ := hlast'
        exact ⟨wl, by rw [List.getLast?_cons_cons]; exact hwl, hwld⟩

/-- C2: under the documented preconditions the Window Planner produces a
finite, nonempty window list with strictly increasing starts that covers
`[0, duration)` with no gap; every window except possibly the last has length
exactly `segment_length`, and every pair of consecutive windows overlaps by
exactly `overlap` seconds (the snap rule only ever changes the final window's
end, so in fact no transition is an exception). -/
theorem window_planner_spec (d : ℚ) (L O : ℤ)
    (hd : 0 < d) (_hL : 10 ≤ L) (hO : 0 ≤ O) (hOL : O < L) :
    segment_audio d L O ≠ [] ∧
    List.Chain' (fun w w' => w.1 < w'.1) (segment_audio d L O) ∧
    (∀ x : ℚ, 0 ≤ x → x < d →
      ∃ w ∈ segment_audio d L O, (w.1 : ℚ) ≤ x ∧ x < (w.2 : ℚ)) ∧
    (∀ w ∈ (segment_audio d L O).dropLast, w.2 - w.1 = L) ∧
    List.Chain' (fun w w' => w.2 - w'.1 = O) (segment_audio d L O) := by
  have h0 : ((0 : ℤ) : ℚ) < d := by exact_mod_cast hd
  have hf : (⌈d⌉ - 0).toNat < ⌈d⌉.toNat + 1 := by omega
  obtain ⟨e, rest, heq, hcov, hchain, hdrop, _hbnd, _hlast⟩ :=
    segmentGo_spec d L O hO hOL (⌈d⌉.toNat + 1) 0 h0 hf
  have hsa : segment_audio d L O = (0, e) :: rest := by
    rw [segment_audio]; exact heq
  refine ⟨by rw [hsa]; exact List.cons_ne_nil _ _, ?_, ?_, ?_, ?_⟩
  · rw [hsa]; exact hchain.imp fun a b h => h.2.1
  · intro x hx hxd
    rw [hsa]
    exact hcov x (by exact_mod_cast hx) hxd
  · intro w hw
    rw [hsa] at hw
    have := hdrop w hw
    omega
  · rw [hsa]; exact hchain.imp fun a b h => h.1

/-- Witness for `window_planner_spec` at the spec's worked example
`duration = 1000`, `length = 600`, `overlap = 60`. -/
theorem window_planner_spec_witness :
    (0 : ℚ) < 1000 ∧ (10 : ℤ) ≤ 600 ∧ (0 : ℤ) ≤ 60 ∧ (60 : ℤ) < 600 ∧
    (segment_audio 1000 600 60 ≠ [] ∧
      List.Chain' (fun w w' => w.1 < w'.1) (segment_audio 1000 600 60) ∧
      (∀ x : ℚ, 0 ≤ x → x < 1000 →
        ∃ w ∈ segment_audio 1000 600 60, (w.1 : ℚ) ≤ x ∧ x < (w.2 : ℚ)) ∧
      (∀ w ∈ (segment_audio 1000 600 60).dropLast, w.2 - w.1 = 600) ∧
      List.Chain' (fun w w' => w.2 - w'.1 = 60) (segment_audio 1000 600 60)) :=
  ⟨by decide, by decide, by decide, by decide,
    window_planner_spec 1000 600 60 (by decide) (by decide) (by decide) (by decide)⟩

/-! ## Ordering of the merged timeline -/

lemma pairwise_of_chain' {α : Type _} {R : α → α → Prop}
    (hR : ∀ a b c, R a b → R b c → R a c) {l : List α}
    (h : List.Chain' R l) : List.Pairwise R l :=
  (@List.chain'_iff_pairwise α R ⟨hR⟩ l).1 h

/-- Planner windows have `start < end`, and both starts and ends are strictly
increasing across the whole list. -/
lemma segment_audio_mono (d : ℚ) (L O : ℤ)
    (hd : 0 < d) (hO : 0 ≤ O) (hOL : O < L) :
    (∀ w ∈ segment_audio d L O, w.1 < w.2) ∧
    List.Pairwise (fun w w' => w.1 < w'.1 ∧ w.2 < w'.2) (segment_audio d L O) := by
  have h0 : ((0 : ℤ) : ℚ) < d := by exact_mod_cast hd
  have hf : (⌈d⌉ - 0).toNat < ⌈d⌉.toNat + 1 := by omega
  obtain ⟨e, rest, heq, _hcov, hchain, _hdrop, hbnd, _hlast⟩ :=
    segmentGo_spec d L O hO hOL (⌈d⌉.toNat + 1) 0 h0 hf
  have hsa : segment_audio d L O = (0, e) :: rest := by
    rw [segment_audio]; exact heq
  rw [hsa]
  refine ⟨fun w hw => (hbnd w hw).2, ?_⟩
  refine pairwise_of_chain' ?_ (hchain.imp fun a b h => ⟨h.2.1, h.2.2⟩)
  intro a b c hab hbc
  exact ⟨hab.1.trans hbc.1, hab.2.trans hbc.2⟩

/-- For windows with `start < end` and strictly increasing starts and ends,
the valid ranges form a staircase: every earlier range ends no later than any
later range begins. -/
lemma real_segments_staircase (W : List (ℤ × ℤ))
    (_hwf : ∀ w ∈ W, w.1 < w.2)
    (hmono : List.Pairwise (fun w w' => w.1 < w'.1 ∧ w.2 < w'.2) W) :
    List.Pairwise (fun v v' => v.2 ≤ v'.1) (real_segments W) := by
  rw [List.pairwise_iff_getElem]
  intro i j hi hj hij
  rw [real_segments_length] at hi hj
  rw [real_segments_getElem W i (by rw [real_segments_length]; exact hi),
    real_segments_getElem W j (by rw [real_segments_length]; exact hj)]
  show valid_end W i ≤ valid_start W j
  have hmonog := List.pairwise_iff_getElem.1 hmono
  have hiW : i < W.length := hi
  have hjW : j < W.length := hj
  have hi1 : i + 1 < W.length := by omega
  have hj1 : j - 1 < W.length := by omega
  have hmle1 : ∀ (a b : ℕ) (ha : a < W.length) (hb : b < W.length),
      a ≤ b → W[a].1 ≤ W[b].1 := by
    intro a b ha hb hab
    rcases Nat.eq_or_lt_of_le hab with h | h
    · subst h; exact le_refl _
    · exact le_of_lt (hmonog a b ha hb h).1
  have hmle2 : ∀ (a b : ℕ) (ha : a < W.length) (hb : b < W.length),
      a ≤ b → W[a].2 ≤ W[b].2 := by
    intro a b ha hb hab
    rcases Nat.eq_or_lt_of_le hab with h | h
    · subst h; exact le_refl _
    · exact le_of_lt (hmonog a b ha hb h).2
  rw [valid_end, valid_start, if_neg (show ¬ i + 1 = W.length by omega),
    if_neg (show ¬ j = 0 by omega),
    List.getD_eq_getElem W (0, 0) hiW, List.getD_eq_getElem W (0, 0) hi1,
    List.getD_eq_getElem W (0, 0) hjW, List.getD_eq_getElem W (0, 0) hj1]
  refine Int.ediv_le_ediv (by norm_num) ?_
  have h1 : W[i].2 ≤ W[j - 1].2 := hmle2 i (j - 1) hiW hj1 (by omega)
  have h2 : W[i + 1].1 ≤ W[j].1 := hmle1 (i + 1) j hi1 hjW (by omega)
  omega

/-- Every caption emitted for one window comes from that window's track, is
shifted by the window's start, and its global start second (its shifted
millisecond ordinal over 1000) lies inside the window's valid range. -/
lemma mergeWindow_mem {track : List Caption} {s vs ve : ℤ} :
    ∀ c ∈ mergeWindow track s vs ve,
      ∃ c' ∈ track, c = Caption.shift s c' ∧
        (vs : ℚ) ≤ (c.start_ms : ℚ) / 1000 ∧ (c.start_ms : ℚ) / 1000 < (ve : ℚ) := by
  induction track with
  | nil =>
    intro c hc
    rw [mergeWindow] at hc
    exact absurd hc (List.not_mem_nil c)
  | cons sub rest ih =>
    intro c hc
    by_cases h : (vs : ℚ) ≤ (sub.start_ms : ℚ) / 1000 + (s : ℚ) ∧
        (sub.start_ms : ℚ) / 1000 + (s : ℚ) < (ve : ℚ)
    · rw [mergeWindow, if_pos h] at hc
      rcases List.mem_cons.1 hc with hc1 | hc2
      · subst hc1
        refine ⟨sub, List.mem_cons_self _ _, rfl, ?_, ?_⟩
        · have key : ((Caption.shift s sub).start_ms : ℚ) / 1000 =
              (sub.start_ms : ℚ) / 1000 + (s : ℚ) := by
            show ((sub.start_ms + 1000 * s : ℤ) : ℚ) / 1000 = _
            push_cast
            ring
          rw [key]; exact h.1
        · have key : ((Caption.shift s sub).start_ms : ℚ) / 1000 =
              (sub.start_ms : ℚ) / 1000 + (s : ℚ) := by
            show ((sub.start_ms + 1000 * s : ℤ) : ℚ) / 1000 = _
            push_cast
            ring
          rw [key]; exact h.2
      · obtain ⟨c', hc', hceq, hb1, hb2⟩ := ih c hc2
        exact ⟨c', List.mem_cons_of_mem _ hc', hceq, hb1, hb2⟩
    · rw [mergeWindow, if_neg h] at hc
      obtain ⟨c', hc', hceq, hb1, hb2⟩ := ih c hc
      exact ⟨c', List.mem_cons_of_mem _ hc', hceq, hb1, hb2⟩

/-- Filtering and shifting preserve a track's internal time order. -/
lemma mergeWindow_sorted {track : List Caption} {s vs ve : ℤ}
    (h : List.Pairwise (fun a b => a.start_ms ≤ b.start_ms) track) :
    List.Pairwise (fun a b => a.start_ms ≤ b.start_ms)
      (mergeWindow track s vs ve) := by
  rw [mergeWindow_eq_filter_map]
  refine List.pairwise_map.2 ?_
  refine List.Pairwise.imp ?_ (List.Pairwise.filter _ h)
  intro a b hab
  show (Caption.shift s a).start_ms ≤ (Caption.shift s b).start_ms
  simp only [Caption.shift]
  omega

lemma mergeLoop_nil_left (vr : List (ℤ × ℤ)) : mergeLoop [] vr = [] := by
  cases vr <;> rfl

lemma mergeLoop_nil_right (segs : List (List Caption × ℤ × ℤ)) :
    mergeLoop segs [] = [] := by
  cases segs with
  | nil => rfl
  | cons x xs => obtain ⟨track, s, e⟩ := x; rfl

lemma mergeLoop_cons (track : List Caption) (s e : ℤ)
    (restSegs : List (List Caption × ℤ × ℤ)) (vs ve : ℤ)
    (restValid : List (ℤ × ℤ)) :
    mergeLoop ((track, s, e) :: restSegs) ((vs, ve) :: restValid) =
      mergeWindow track s vs ve ++ mergeLoop restSegs restValid := rfl

/-- Provenance of merged captions: each comes from the `i`-th window's track,
shifted by that window's start, with its global start second inside the `i`-th
valid range. -/
lemma mergeLoop_mem :
    ∀ (segs : List (List Caption × ℤ × ℤ)) (vr : List (ℤ × ℤ)),
      ∀ c ∈ mergeLoop segs vr,
        ∃ (i : ℕ) (h1 : i < segs.length) (h2 : i < vr.length),
          ∃ c' ∈ (segs.get ⟨i, h1⟩).1,
            c = Caption.shift ((segs.get ⟨i, h1⟩).2.1) c' ∧
            ((vr.get ⟨i, h2⟩).1 : ℚ) ≤ (c.start_ms : ℚ) / 1000 ∧
            (c.start_ms : ℚ) / 1000 < ((vr.get ⟨i, h2⟩).2 : ℚ) := by
  intro segs
  induction segs with
  | nil =>
    intro vr c hc
    rw [mergeLoop_nil_left] at hc
    exact absurd hc (List.not_mem_nil c)
  | cons x restSegs ih =>
    intro vr c hc
    obtain ⟨track, s, e⟩ := x
    cases vr with
    | nil =>
      rw [mergeLoop_nil_right] at hc
      exact absurd hc (List.not_mem_nil c)
    | cons v restV =>
      obtain ⟨vs, ve⟩ := v
      rw [mergeLoop_cons] at hc
      rcases List.mem_append.1 hc with hl | hr
      · obtain ⟨c', hc', hceq, hb1, hb2⟩ := mergeWindow_mem c hl
        exact ⟨0, Nat.succ_pos _, Nat.succ_pos _, c', hc', hceq, hb1, hb2⟩
      · obtain ⟨i, h1, h2, c', hc', hceq, hb1, hb2⟩ := ih restV c hr
        exact ⟨i + 1, Nat.succ_lt_succ h1, Nat.succ_lt_succ h2, c', hc', hceq,
          hb1, hb2⟩

/-- Weaker form: each merged caption's global start second lies in some valid
range of the list. -/
lemma mergeLoop_range (segs : List (List Caption × ℤ × ℤ)) (vr : List (ℤ × ℤ)) :
    ∀ c ∈ mergeLoop segs vr,
      ∃ v ∈ vr, (v.1 : ℚ) ≤ (c.start_ms : ℚ) / 1000 ∧
        (c.start_ms : ℚ) / 1000 < (v.2 : ℚ) := by
  intro c hc
  obtain ⟨i, _h1, h2, _c', _hc', _hceq, hb1, hb2⟩ := mergeLoop_mem segs vr c hc
  exact ⟨vr.get ⟨i, h2⟩, List.get_mem vr i h2, hb1, hb2⟩

/-- If each track is internally sorted and the valid ranges form a staircase,
the merge loop's output is globally sorted by start time. -/
lemma mergeLoop_sorted :
    ∀ (segs : List (List Caption × ℤ × ℤ)) (vr : List (ℤ × ℤ)),
      (∀ x ∈ segs, List.Pairwise (fun a b => a.start_ms ≤ b.start_ms) x.1) →
      List.Pairwise (fun v v' => v.2 ≤ v'.1) vr →
      List.Pairwise (fun a b => a.start_ms ≤ b.start_ms) (mergeLoop segs vr) := by
  intro segs
  induction segs with
  | nil => intro vr _ _; rw [mergeLoop_nil_left]; exact List.Pairwise.nil
  | cons x restSegs ih =>
    intro vr hs hvr
    obtain ⟨track, s, e⟩ := x
    cases vr with
    | nil => rw [mergeLoop_nil_right]; exact List.Pairwise.nil
    | cons v restV =>
      obtain ⟨vs, ve⟩ := v
      rw [mergeLoop_cons, List.pairwise_append]
      refine ⟨mergeWindow_sorted (hs _ (List.mem_cons_self _ _)),
        ih restV (fun y hy => hs y (List.mem_cons_of_mem _ hy))
          (List.pairwise_cons.1 hvr).2, ?_⟩
      intro a ha b hb
      obtain ⟨_, _, _, _ha1, ha2⟩ := mergeWindow_mem a ha
      obtain ⟨v', hv', hb1, _hb2⟩ := mergeLoop_range restSegs restV b hb
      have hvv : ve ≤ v'.1 := (List.pairwise_cons.1 hvr).1 v' hv'
      have c1 : (a.start_ms : ℚ) / 1000 < (v'.1 : ℚ) :=
        lt_of_lt_of_le ha2 (by exact_mod_cast hvv)
      have c2 : (a.start_ms : ℚ) / 1000 < (b.start_ms : ℚ) / 1000 :=
        lt_of_lt_of_le c1 hb1
      have c3 : (a.start_ms : ℚ) < (b.start_ms : ℚ) :=
        (div_lt_div_iff_of_pos_right (by norm_num : (0 : ℚ) < 1000)).1 c2
      exact le_of_lt (by exact_mod_cast c3)

/-- C5: for Window Planner windows under the documented preconditions, with
each per-window track internally time-ascending, the Timeline Merger's output
is globally time-ordered (no separate sort step), and every emitted caption
comes from some window `i`'s track, shifted by that window's start, with its
global start second inside window `i`'s valid range. -/
theorem merger_ordered_valid (d : ℚ) (L O : ℤ)
    (hd : 0 < d) (_hL : 10 ≤ L) (hO : 0 ≤ O) (hOL : O < L)
    (segs : List (List Caption × ℤ × ℤ))
    (hw : segs.map (fun x => (x.2.1, x.2.2)) = segment_audio d L O)
    (hs : ∀ x ∈ segs, List.Pairwise (fun a b => a.start_ms ≤ b.start_ms) x.1) :
    List.Pairwise (fun a b => a.start_ms ≤ b.start_ms)
      (mergeLoop segs (real_segments (segs.map fun x => (x.2.1, x.2.2)))) ∧
    ∀ c ∈ mergeLoop segs (real_segments (segs.map fun x => (x.2.1, x.2.2))),
      ∃ (i : ℕ) (h1 : i < segs.length),
        (∃ c' ∈ (segs.get ⟨i, h1⟩).1,
          c = Caption.shift ((segs.get ⟨i, h1⟩).2.1) c') ∧
        (valid_start (segment_audio d L O) i : ℚ) ≤ (c.start_ms : ℚ) / 1000 ∧
        (c.start_ms : ℚ) / 1000 < (valid_end (segment_audio d L O) i : ℚ) := by
  have hmono := segment_audio_mono d L O hd hO hOL
  have hst := real_segments_staircase (segment_audio d L O) hmono.1 hmono.2
  rw [hw]
  constructor
  · exact mergeLoop_sorted segs (real_segments (segment_audio d L O)) hs hst
  · intro c hc
    obtain ⟨i, h1, h2, c', hc', hceq, hb1, hb2⟩ :=
      mergeLoop_mem segs (real_segments (segment_audio d L O)) c hc
    have hget : (real_segments (segment_audio d L O)).get ⟨i, h2⟩ =
        (valid_start (segment_audio d L O) i, valid_end (segment_audio d L O) i) := by
      rw [List.get_eq_getElem]
      exact real_segments_getElem (segment_audio d L O) i h2
    rw [hget] at hb1 hb2
    exact ⟨i, h1, ⟨c', hc', hceq⟩, hb1, hb2⟩

/-- The spec's worked example: `duration = 1000`, `length = 600`,
`overlap = 60` gives windows `[(0, 600), (540, 1001)]`. -/
lemma segment_audio_example : segment_audio 1000 600 60 = [(0, 600), (540, 1001)] := by
  have h1 : (⌈(1000 : ℚ)⌉ : ℤ) = 1000 := by norm_num
  have hfuel1 : (⌈(1000 : ℚ)⌉).toNat + 1 = 1000 + 1 := by rw [h1]; rfl
  have hfuel2 : (1000 : ℕ) = 999 + 1 := by norm_num
  rw [segment_audio, hfuel1, segmentGo,
    if_pos (show ((0 : ℤ) : ℚ) < 1000 by norm_num)]
  simp only [if_neg (show ¬ (1000 : ℚ) < ((0 + 600 : ℤ) : ℚ) + 1 by norm_num),
    if_neg (show ¬ (1000 : ℚ) ≤ ((0 + 600 : ℤ) : ℚ) by norm_num)]
  rw [hfuel2, segmentGo,
    if_pos (show ((0 + (600 - 60) : ℤ) : ℚ) < 1000 by norm_num)]
  simp only [if_pos
      (show (1000 : ℚ) < ((0 + (600 - 60) + 600 : ℤ) : ℚ) + 1 by norm_num),
    if_pos (show (1000 : ℚ) ≤ ((⌊(1000 : ℚ)⌋ + 1 : ℤ) : ℚ) by norm_num)]
  norm_num

/-- Witness for `merger_ordered_valid`: the spec's worked example with a
one-caption track in the first window and an empty track in the second. -/
theorem merger_ordered_valid_witness :
    (0 : ℚ) < 1000 ∧ (10 : ℤ) ≤ 600 ∧ (0 : ℤ) ≤ 60 ∧ (60 : ℤ) < 600 ∧
    ([([⟨0, 500, "a"⟩], 0, 600), ([], 540, 1001)].map
        (fun (x : List Caption × ℤ × ℤ) => (x.2.1, x.2.2)) =
      segment_audio 1000 600 60) ∧
    (∀ x ∈ [([(⟨0, 500, "a"⟩ : Caption)], (0 : ℤ), (600 : ℤ)), ([], 540, 1001)],
      List.Pairwise (fun a b => a.start_ms ≤ b.start_ms) x.1) ∧
    (List.Pairwise (fun a b => a.start_ms ≤ b.start_ms)
      (mergeLoop [([(⟨0, 500, "a"⟩ : Caption)], (0 : ℤ), (600 : ℤ)), ([], 540, 1001)]
        (real_segments
          ([([(⟨0, 500, "a"⟩ : Caption)], (0 : ℤ), (600 : ℤ)), ([], 540, 1001)].map
            fun x => (x.2.1, x.2.2)))) ∧
    ∀ c ∈ mergeLoop [([(⟨0, 500, "a"⟩ : Caption)], (0 : ℤ), (600 : ℤ)), ([], 540, 1001)]
        (real_segments
          ([([(⟨0, 500, "a"⟩ : Caption)], (0 : ℤ), (600 : ℤ)), ([], 540, 1001)].map
            fun x => (x.2.1, x.2.2))),
      ∃ (i : ℕ)
        (h1 : i < [([(⟨0, 500, "a"⟩ : Caption)], (0 : ℤ), (600 : ℤ)), ([], 540, 1001)].length),
        (∃ c' ∈ ([([(⟨0, 500, "a"⟩ : Caption)], (0 : ℤ), (600 : ℤ)), ([], 540, 1001)].get
            ⟨i, h1⟩).1,
          c = Caption.shift
            (([([(⟨0, 500, "a"⟩ : Caption)], (0 : ℤ), (600 : ℤ)), ([], 540, 1001)].get
              ⟨i, h1⟩).2.1) c') ∧
        (valid_start (segment_audio 1000 600 60) i : ℚ) ≤ (c.start_ms : ℚ) / 1000 ∧
        (c.start_ms : ℚ) / 1000 < (valid_end (segment_audio 1000 600 60) i : ℚ)) :=
  ⟨by decide, by decide, by decide, by decide, by simp [segment_audio_example],
    by simp,
    merger_ordered_valid 1000 600 60 (by decide) (by decide) (by decide) (by decide)
      [([(⟨0, 500, "a"⟩ : Caption)], (0 : ℤ), (600 : ℤ)), ([], 540, 1001)]
      (by simp [segment_audio_example]) (by simp)⟩
